import Mathlib

/-!
# Verification of the agent-101 repository against its specification

This file gives a shallow embedding, in Lean 4, of the parts of the
`agent101` Python package that the specification talks about:

* the planner/executor control loop (`src/agent101/executor/langgraph_app.py`),
* short-term memory truncation and the Chroma wrapper (`src/agent101/memory.py`),
* the safe calculator (`src/agent101/tools/calculator.py`),
* the tool-calling Q&A loop (`src/agent101/agents/base_qa.py`),
* the multi-step web agent (`src/agent101/web/agent.py`).

External effects (the hosted LLM API, the planner LLM, the tools, the vector
store, the browser, the tokenizer, and Python's `ast`/`json` parsers) are
modelled as oracle parameters: functions supplying the response of each
external call, indexed by invocation count where several calls can occur.
Machine-level floating point is not modelled; numeric values in the
calculator are represented by rationals, which is sufficient for the
exception-propagation properties proved about it.
-/

namespace Agent101

/-! ## Planner/executor graph (`executor/langgraph_app.py`)

The LangGraph application has nodes `plan`, `choose` and `execute`, an
unconditional edge `plan → choose`, a conditional edge from `choose`
(router `_route_from_choose`, label map `\x7b"execute": "execute", "end": END\x7d`)
and an unconditional edge `execute → choose`.  `AgentState` is embedded
field by field.  Plan steps (Python dicts) are represented by their JSON
rendering, a `String`, since the executor never inspects their structure.
An uncaught exception inside a node (only possible at the `json.loads`
call in `_node_execute`, which sits outside the `try` block) is modelled
by a distinguished `crashed` node. -/

/-- The nodes of the compiled graph, plus the terminal `END` state (`end_`)
and a `crashed` state for an uncaught exception inside a node body. -/
inductive Node
  | plan
  | choose
  | execute
  | end_
  | crashed
deriving DecidableEq, Repr

/-- A chat message (`role`/`content` dict). -/
structure Message where
  role : String
  content : String
deriving DecidableEq, Repr

/-- The `function` member of an OpenAI tool call: a tool name and a JSON
argument string (`None` is represented by `none`). -/
structure ToolFn where
  name : String
  arguments : Option String
deriving DecidableEq, Repr

/-- A tool call returned by the LLM (`tc.function.name`, `tc.function.arguments`). -/
structure ToolCall where
  function : ToolFn
deriving DecidableEq, Repr

/-- The dict returned by `LLMClient.function_call_chat`: it always carries the
keys `content` (possibly `None`) and `tool_calls` (never `None`, thanks to
`message.tool_calls or []`). -/
structure FCResp where
  tool_calls : List ToolCall
  content : Option String
deriving DecidableEq, Repr

/-- An entry of the `tool_outputs` log. -/
structure ToolOutput where
  name : String
  result : String
deriving DecidableEq, Repr

/-- A plan step: the JSON rendering of the dict produced by the planner. -/
abbrev Step := String

/-- The `AgentState` TypedDict of the graph. -/
structure ExecState where
  question : String
  plan : List Step
  step_index : Nat
  tool_outputs : List ToolOutput
  final_answer : Option String
  completed : Bool
  error : Option String
  messages : List Message
  pending_tool_calls : List ToolCall
deriving DecidableEq, Repr

/-- Responses of every external call the executor makes, treated as oracle
inputs to the step relation:

* `planResult` — the outcome of `self.planner.plan(question)` (one call per run);
* `chooseResp` — the outcome of the `r`-th call to `llm.function_call_chat`;
* `summarizeResp` — the outcome of the `sr`-th call to `llm.chat` (summarization);
* `loadsOk` — whether `json.loads` succeeds on an argument string;
* `toolResult` — the (JSON-rendered) result of the `t`-th tool invocation;
  the dispatch on the tool name and its `try/except` wrapper always produce
  a result value, so no exception is modelled here. -/
structure Oracle where
  planResult : Except String (List Step)
  chooseResp : Nat → Except String FCResp
  summarizeResp : Nat → Except String String
  loadsOk : String → Bool
  toolResult : Nat → ToolCall → String

/-- Stand-in for `json.dumps(plan, ensure_ascii=False)` in the plan message. -/
def renderPlanMsg (plan : List Step) : String :=
  "当前计划: " ++ String.intercalate ", " plan

/-- Stand-in for the current-step system message. -/
def renderStepMsg (st : Step) : String :=
  "当前步骤: " ++ st

/-- Stand-in for `json.dumps(\x7b"name": name, "result": result\x7d)` in tool messages. -/
def renderToolMsg (name result : String) : String :=
  "name=" ++ name ++ "; result=" ++ result

/-- Embedding of `_node_plan`: run the planner; on failure record the error and complete,
otherwise install the plan, reset the step index and seed the messages. -/
def nodePlan (o : Oracle) (s : ExecState) : ExecState :=
  match o.planResult with
  | Except.error e => { s with error := some ("规划失败: " ++ e), completed := true }
  | Except.ok plan =>
      { s with
        plan := plan
        step_index := 0
        messages :=
          [⟨"system", "你是一个执行器。按计划逐步完成任务，必要时调用工具。"⟩,
           ⟨"user", s.question⟩,
           ⟨"system", renderPlanMsg plan⟩]
        tool_outputs := [] }

/-- Embedding of `tc.function.arguments or "\x7b\x7d"`: `None` and the empty string both fall
back to the empty JSON object. -/
def effArgs (tc : ToolCall) : String :=
  if tc.function.arguments.getD "" = "" then "\x7b\x7d" else tc.function.arguments.getD ""

/-- Embedding of `_node_choose`: with the plan exhausted, summarize (one `llm.chat` call);
otherwise append the current-step message and ask the LLM to pick tools
(one `function_call_chat` call).  Returns the new state together with the
updated `function_call_chat` and `chat` invocation counters. -/
def nodeChoose (o : Oracle) (s : ExecState) (r sr : Nat) : ExecState × Nat × Nat :=
  if s.plan.length ≤ s.step_index then
    match o.summarizeResp sr with
    | Except.error e =>
        ({ s with error := some ("汇总失败: " ++ e), completed := true }, r, sr + 1)
    | Except.ok resp =>
        ({ s with final_answer := some resp, completed := true }, r, sr + 1)
  else
    let current := s.plan.getD s.step_index ""
    let msgs1 := s.messages ++ [⟨"system", renderStepMsg current⟩]
    match o.chooseResp r with
    | Except.error e =>
        ({ s with
            messages := msgs1
            error := some ("选择工具失败: " ++ e)
            completed := true }, r + 1, sr)
    | Except.ok fc =>
        if fc.tool_calls.isEmpty then
          ({ s with
              messages := msgs1 ++ [⟨"assistant", fc.content.getD ""⟩]
              step_index := s.step_index + 1 }, r + 1, sr)
        else
          ({ s with messages := msgs1, pending_tool_calls := fc.tool_calls }, r + 1, sr)

/-- The loop body of `_node_execute`: process the pending tool calls in order.
`json.loads` sits outside the node's `try` block, so a parse failure is an
uncaught exception, modelled by `none`.  Inside the `try` block every
exception is converted into a result value, so each surviving call appends
exactly one tool message and one tool-output entry. -/
def execCalls (o : Oracle) : Nat → List Message → List ToolOutput → List ToolCall →
    Option (List Message × List ToolOutput × Nat)
  | t, msgs, outs, [] => some (msgs, outs, t)
  | t, msgs, outs, tc :: rest =>
      if o.loadsOk (effArgs tc) then
        let result := o.toolResult t tc
        execCalls o (t + 1)
          (msgs ++ [⟨"tool", renderToolMsg tc.function.name result⟩])
          (outs ++ [⟨tc.function.name, result⟩]) rest
      else none

/-- Embedding of `_node_execute`: run the pending calls, then clear `pending_tool_calls`.
`none` models the node raising (uncaught `json.loads` failure). -/
def nodeExecute (o : Oracle) (s : ExecState) (t : Nat) : Option (ExecState × Nat) :=
  match execCalls o t s.messages s.tool_outputs s.pending_tool_calls with
  | none => none
  | some (msgs, outs, t2) =>
      some ({ s with messages := msgs, tool_outputs := outs, pending_tool_calls := [] }, t2)

/-- Embedding of `_route_from_choose`, word for word: `completed` wins, then non-empty
`pending_tool_calls`, then the step-counter test. -/
def routeFromChoose (s : ExecState) : String :=
  if s.completed then "end"
  else if s.pending_tool_calls.isEmpty then
    if s.step_index < s.plan.length then "execute" else "end"
  else "execute"

/-- The conditional-edge label map `\x7b"execute": "execute", "end": END\x7d`. -/
def toNode (lbl : String) : Node :=
  if lbl = "execute" then Node.execute else Node.end_

/-- The static shape of the graph built by `_build_graph`. -/
structure GraphDef where
  nodes : List String
  edges : List (String × String)
  conditional : List (String × List (String × String))
deriving DecidableEq, Repr

/-- Embedding of `_build_graph`: three nodes, edges `plan → choose` and `execute → choose`,
and one conditional edge out of `choose`. -/
def buildGraph : GraphDef :=
  ⟨["plan", "choose", "execute"],
   [("plan", "choose"), ("execute", "choose")],
   [("choose", [("execute", "execute"), ("end", "END")])]⟩

/-- A configuration of the running graph: current node, state, and the
invocation counters for `function_call_chat` (`r`), `chat` (`sr`) and tool
execution (`t`). -/
structure Config where
  node : Node
  s : ExecState
  r : Nat
  sr : Nat
  t : Nat
deriving DecidableEq, Repr

/-- One transition of the graph: run the body of the current node, then
follow its outgoing edge (the conditional router for `choose`).  `end_` and
`crashed` are absorbing. -/
def stepC (o : Oracle) (c : Config) : Config :=
  match c.node with
  | Node.plan => { c with node := Node.choose, s := nodePlan o c.s }
  | Node.choose =>
      let res := nodeChoose o c.s c.r c.sr
      { c with
          node := toNode (routeFromChoose res.1)
          s := res.1
          r := res.2.1
          sr := res.2.2 }
  | Node.execute =>
      match nodeExecute o c.s c.t with
      | none => { c with node := Node.crashed }
      | some (s2, t2) => { c with node := Node.choose, s := s2, t := t2 }
  | Node.end_ => c
  | Node.crashed => c

/-- The initial state built by `PlannerExecutorApp.run`. -/
def initState (q : String) : ExecState :=
  ⟨q, [], 0, [], none, false, none, [], []⟩

/-- The initial configuration: entry at the `plan` node, all counters zero. -/
def initConfig (q : String) : Config :=
  ⟨Node.plan, initState q, 0, 0, 0⟩

/-- The configuration after `n` transitions of a run on `question = q`. -/
def trace (o : Oracle) (q : String) (n : Nat) : Config :=
  (stepC o)^[n] (initConfig q)

/-- C2. The planner/executor graph is exactly the three-state machine the
spec describes: precisely the nodes `plan`, `choose`, `execute`; `plan`
always transitions to `choose`; `execute` always transitions back to
`choose`; and the router out of `choose` yields only `execute` or the
terminal end state, choosing `end` exactly when the state is completed or
the step counter has reached the plan length with no pending tool calls. -/
theorem c2_graph_three_state :
    buildGraph.nodes = ["plan", "choose", "execute"] ∧
    buildGraph.nodes.length = 3 ∧
    buildGraph.edges = [("plan", "choose"), ("execute", "choose")] ∧
    buildGraph.conditional = [("choose", [("execute", "execute"), ("end", "END")])] ∧
    toNode "execute" = Node.execute ∧
    toNode "end" = Node.end_ ∧
    (∀ s : ExecState, routeFromChoose s = "end" ∨ routeFromChoose s = "execute") ∧
    (∀ s : ExecState, routeFromChoose s = "end" ↔
      (s.completed = true ∨ (s.pending_tool_calls = [] ∧ s.plan.length ≤ s.step_index))) := by
  refine ⟨rfl, rfl, rfl, rfl, by decide, by decide, ?_, ?_⟩
  · intro s
    unfold routeFromChoose
    split_ifs <;> simp
  · intro s
    unfold routeFromChoose
    split_ifs with h1 h2 h3
    · simp [h1]
    · simp [h1, h3]
    · simp [h1, List.isEmpty_iff.mp h2, Nat.le_of_not_lt h3]
    · constructor
      · intro h
        exact absurd h (by decide)
      · rintro (hc | ⟨hp, _⟩)
        · exact absurd hc h1
        · exact absurd (List.isEmpty_iff.mpr hp) (by simpa using h2)

/-- Unfolding of one transition: `trace` at `n + 1`. -/
lemma trace_succ (o : Oracle) (q : String) (n : Nat) :
    trace o q (n + 1) = stepC o (trace o q n) := by
  simp [trace, Function.iterate_succ_apply']

/-- A transition never leads back to the `plan` node. -/
lemma stepC_node_ne_plan (o : Oracle) (c : Config) : (stepC o c).node ≠ Node.plan := by
  cases hn : c.node <;> simp only [stepC, hn]
  · simp
  · unfold toNode
    split <;> simp
  · cases nodeExecute o c.s c.t with
    | none => simp
    | some p => simp
  · simp [hn]
  · simp [hn]

/-- The `plan` node occurs only in the initial configuration, where the step
counter is zero. -/
lemma trace_plan_step_index (o : Oracle) (q : String) (n : Nat)
    (h : (trace o q n).node = Node.plan) : (trace o q n).s.step_index = 0 := by
  cases n with
  | zero => rfl
  | succ m =>
      rw [trace_succ] at h
      exact absurd h (stepC_node_ne_plan o _)

/-- The node `_node_execute` never touches the plan, the step counter, the completion
flag, the final answer or the error; on success it clears the pending calls. -/
lemma nodeExecute_preserves (o : Oracle) (s : ExecState) (t : Nat) (s2 : ExecState)
    (t2 : Nat) (h : nodeExecute o s t = some (s2, t2)) :
    s2.step_index = s.step_index ∧ s2.plan = s.plan ∧ s2.completed = s.completed ∧
      s2.final_answer = s.final_answer ∧ s2.error = s.error ∧
      s2.pending_tool_calls = [] ∧ s2.question = s.question := by
  unfold nodeExecute at h
  cases hc : execCalls o t s.messages s.tool_outputs s.pending_tool_calls with
  | none => rw [hc] at h; cases h
  | some trip =>
      obtain ⟨ms, os, tt⟩ := trip
      rw [hc] at h
      have hs2 : s2 = { s with messages := ms, tool_outputs := os, pending_tool_calls := [] } := by
        cases h; rfl
      subst hs2
      exact ⟨rfl, rfl, rfl, rfl, rfl, rfl, rfl⟩

/-- Per-transition behaviour of the step counter: it is unchanged, except on
a `choose` transition in which the LLM successfully returns no tool calls
with plan steps remaining, where it increases by exactly one. -/
lemma step_index_transition (o : Oracle) (c : Config)
    (hplan : c.node = Node.plan → c.s.step_index = 0) :
    (stepC o c).s.step_index = c.s.step_index ∨
      ((stepC o c).s.step_index = c.s.step_index + 1 ∧ c.node = Node.choose ∧
        c.s.step_index < c.s.plan.length ∧
        ∃ fc, o.chooseResp c.r = Except.ok fc ∧ fc.tool_calls = []) := by
  cases hn : c.node
  case plan =>
      left
      simp only [stepC, hn]
      unfold nodePlan
      cases o.planResult with
      | error e => rfl
      | ok plan => simpa using (hplan hn).symm
  case choose =>
      simp only [stepC, hn]
      unfold nodeChoose
      by_cases hle : c.s.plan.length ≤ c.s.step_index
      · left
        simp only [if_pos hle]
        cases o.summarizeResp c.sr <;> rfl
      · simp only [if_neg hle]
        cases hr : o.chooseResp c.r with
        | error e => left; rfl
        | ok fc =>
            by_cases he : fc.tool_calls.isEmpty
            · right
              exact ⟨by simp [he], trivial, Nat.lt_of_not_ge hle, fc, rfl,
                List.isEmpty_iff.mp he⟩
            · left; simp [he]
  case execute =>
      left
      simp only [stepC, hn]
      cases hx : nodeExecute o c.s c.t with
      | none => rfl
      | some p =>
          obtain ⟨s2, t2⟩ := p
          simpa using (nodeExecute_preserves o c.s c.t s2 t2 hx).1
  case end_ => left; simp [stepC, hn]
  case crashed => left; simp [stepC, hn]

/-- Per-transition preservation of the bound `step_index ≤ plan.length`. -/
lemma step_index_le_plan_step (o : Oracle) (c : Config)
    (h : c.s.step_index ≤ c.s.plan.length) :
    (stepC o c).s.step_index ≤ (stepC o c).s.plan.length := by
  cases hn : c.node
  case plan =>
      simp only [stepC, hn]
      unfold nodePlan
      cases o.planResult with
      | error e => exact h
      | ok plan => simp
  case choose =>
      simp only [stepC, hn]
      unfold nodeChoose
      by_cases hle : c.s.plan.length ≤ c.s.step_index
      · simp only [if_pos hle]
        cases o.summarizeResp c.sr <;> exact h
      · simp only [if_neg hle]
        cases hr : o.chooseResp c.r with
        | error e => exact h
        | ok fc =>
            by_cases he : fc.tool_calls.isEmpty
            · simp only [he]
              simp
              omega
            · simp [he, h]
  case execute =>
      simp only [stepC, hn]
      cases hx : nodeExecute o c.s c.t with
      | none => exact h
      | some p =>
          obtain ⟨s2, t2⟩ := p
          obtain ⟨h1, h2, -⟩ := nodeExecute_preserves o c.s c.t s2 t2 hx
          simpa [h1, h2] using h
  case end_ => simpa [stepC, hn] using h
  case crashed => simpa [stepC, hn] using h

/-- The bound `step_index ≤ plan.length` holds in every reachable
configuration. -/
lemma trace_step_index_le_plan (o : Oracle) (q : String) (n : Nat) :
    (trace o q n).s.step_index ≤ (trace o q n).s.plan.length := by
  induction n with
  | zero => exact Nat.le_refl 0
  | succ m ih =>
      rw [trace_succ]
      exact step_index_le_plan_step o _ ih

/-- C4. The executor's only progress mechanism is a step counter: in
every reachable configuration `step_index ≤ plan.length` (nonnegativity is
inherent in the `Nat` type); across every transition the counter never
decreases; and it increases — by exactly one — only on a `choose`
transition in which the tool-selection LLM successfully returns no tool
calls, staying unchanged on every other transition. -/
theorem c4_step_counter_invariant (o : Oracle) (q : String) (n : Nat) :
    (trace o q n).s.step_index ≤ (trace o q n).s.plan.length ∧
    (trace o q n).s.step_index ≤ (trace o q (n + 1)).s.step_index ∧
    ((trace o q (n + 1)).s.step_index = (trace o q n).s.step_index ∨
      ((trace o q (n + 1)).s.step_index = (trace o q n).s.step_index + 1 ∧
        (trace o q n).node = Node.choose ∧
        (trace o q n).s.step_index < (trace o q n).s.plan.length ∧
        ∃ fc, o.chooseResp (trace o q n).r = Except.ok fc ∧ fc.tool_calls = [])) := by
  have htr := step_index_transition o (trace o q n) (trace_plan_step_index o q n)
  rw [← trace_succ] at htr
  refine ⟨trace_step_index_le_plan o q n, ?_, htr⟩
  rcases htr with h | ⟨h, -⟩
  · exact Nat.le_of_eq h.symm
  · omega

/-! ### C1: termination of the control loop -/

/-- Oracle response `k` is a successful tool-selection round carrying at
least one tool call. -/
def returnsToolCalls (o : Oracle) (k : Nat) : Prop :=
  ∃ fc, o.chooseResp k = Except.ok fc ∧ fc.tool_calls ≠ []

/-- Every tool call ever returned by the LLM carries arguments that
`json.loads` accepts (otherwise `_node_execute` raises). -/
def allToolArgsParse (o : Oracle) : Prop :=
  ∀ k fc tc, o.chooseResp k = Except.ok fc → tc ∈ fc.tool_calls →
    o.loadsOk (effArgs tc) = true

/-- The single tool call returned forever by the counterexample oracle. -/
def cexToolCall : ToolCall := ⟨⟨"web_search", some "x"⟩⟩

/-- Counterexample oracle: the planner returns a one-step plan and the
tool-selection LLM returns a tool call at every round. -/
def cexOracle : Oracle :=
  ⟨Except.ok ["step one"],
   fun _ => Except.ok ⟨[cexToolCall], some ""⟩,
   fun _ => Except.ok "done",
   fun _ => true,
   fun _ _ => "result"⟩

/-- Invariant of the counterexample run: the machine cycles between `choose`
and `execute` with the step counter stuck at `0`. -/
def c1cexInv (c : Config) : Prop :=
  (c.node = Node.plan ∧ c.s.completed = false ∧ c.s.step_index = 0) ∨
  (c.node = Node.choose ∧ c.s.completed = false ∧ c.s.step_index = 0 ∧
    c.s.plan = ["step one"]) ∨
  (c.node = Node.execute ∧ c.s.completed = false ∧ c.s.step_index = 0 ∧
    c.s.plan = ["step one"] ∧ c.s.pending_tool_calls = [cexToolCall])

lemma c1cex_inv_step (c : Config) (h : c1cexInv c) : c1cexInv (stepC cexOracle c) := by
  rcases h with ⟨hn, hc, hi⟩ | ⟨hn, hc, hi, hp⟩ | ⟨hn, hc, hi, hp, hpd⟩
  · right; left
    simp only [stepC, hn]
    unfold nodePlan
    simp [cexOracle, hc]
  · right; right
    simp only [stepC, hn]
    unfold nodeChoose
    simp [cexOracle, hp, hi, hc, routeFromChoose, toNode]
  · right; left
    simp only [stepC, hn]
    unfold nodeExecute
    simp [execCalls, cexOracle, hpd, hc, hi, hp]

/-- C1, counterexample. With a planner that returns a non-empty plan and
a tool-selection LLM that returns a tool call at every `choose` round, the
run never reaches the end state: the step counter is never advanced, so the
`choose`/`execute` cycle repeats forever.  This refutes the claim that the
loop terminates for every sequence of oracle responses, including
executions in which the LLM returns tool calls at every choose step. -/
theorem c1_counterexample : ¬ ∃ n, (trace cexOracle "q" n).node = Node.end_ := by
  have hinv : ∀ n, c1cexInv (trace cexOracle "q" n) := by
    intro n
    induction n with
    | zero => exact Or.inl ⟨rfl, rfl, rfl⟩
    | succ m ih =>
        rw [trace_succ]
        exact c1cex_inv_step _ ih
  rintro ⟨n, hn⟩
  rcases hinv n with ⟨h, -⟩ | ⟨h, -⟩ | ⟨h, -⟩ <;> rw [hn] at h <;> cases h

/-- On a `choose` configuration, an exhausted plan (summarization branch)
completes the state, so the next configuration is the end state. -/
lemma choose_exhausted_end (o : Oracle) (c : Config) (hnode : c.node = Node.choose)
    (hle : c.s.plan.length ≤ c.s.step_index) :
    (stepC o c).node = Node.end_ := by
  simp only [stepC, hnode]
  unfold nodeChoose
  simp only [if_pos hle]
  cases o.summarizeResp c.sr with
  | error e => simp [routeFromChoose, toNode]
  | ok a => simp [routeFromChoose, toNode]

/-- On a `choose` configuration with the completed flag already set, the
router sends the run to the end state in one transition (every branch of
`_node_choose` preserves or sets `completed`). -/
lemma choose_completed_end (o : Oracle) (c : Config) (hnode : c.node = Node.choose)
    (hc : c.s.completed = true) :
    (stepC o c).node = Node.end_ := by
  simp only [stepC, hnode]
  unfold nodeChoose
  by_cases hle : c.s.plan.length ≤ c.s.step_index
  · simp only [if_pos hle]
    cases o.summarizeResp c.sr <;> simp [routeFromChoose, toNode]
  · simp only [if_neg hle]
    cases o.chooseResp c.r with
    | error e => simp [routeFromChoose, toNode]
    | ok fc =>
        by_cases he : fc.tool_calls.isEmpty <;>
          simp [he, routeFromChoose, toNode, hc]

/-- If every pending call parses, `execCalls` succeeds. -/
lemma execCalls_ok (o : Oracle) (calls : List ToolCall)
    (h : ∀ tc ∈ calls, o.loadsOk (effArgs tc) = true) :
    ∀ t msgs outs, ∃ res, execCalls o t msgs outs calls = some res := by
  induction calls with
  | nil => intro t msgs outs; exact ⟨_, rfl⟩
  | cons tc rest ih =>
      intro t msgs outs
      have htc := h tc (List.mem_cons_self tc rest)
      simp only [execCalls, htc, if_true]
      exact ih (fun x hx => h x (List.mem_cons_of_mem _ hx)) _ _ _

/-- Behaviour of one transition out of a non-exhausted `choose`
configuration, split by the oracle's answer. -/
lemma stepC_choose_cases (o : Oracle) (c : Config) (hnode : c.node = Node.choose)
    (hle : ¬ c.s.plan.length ≤ c.s.step_index) :
    (∃ e, o.chooseResp c.r = Except.error e ∧ (stepC o c).node = Node.end_) ∨
    (∃ fc, o.chooseResp c.r = Except.ok fc ∧ fc.tool_calls = [] ∧
      (stepC o c).s.step_index = c.s.step_index + 1 ∧
      (stepC o c).s.plan = c.s.plan ∧
      (stepC o c).s.completed = c.s.completed ∧
      (stepC o c).s.final_answer = c.s.final_answer ∧
      (stepC o c).s.pending_tool_calls = c.s.pending_tool_calls ∧
      (stepC o c).r = c.r + 1 ∧ (stepC o c).sr = c.sr ∧ (stepC o c).t = c.t ∧
      (stepC o c).node = toNode (routeFromChoose (stepC o c).s)) ∨
    (∃ fc, o.chooseResp c.r = Except.ok fc ∧ fc.tool_calls ≠ [] ∧
      (stepC o c).s.step_index = c.s.step_index ∧
      (stepC o c).s.plan = c.s.plan ∧
      (stepC o c).s.completed = c.s.completed ∧
      (stepC o c).s.final_answer = c.s.final_answer ∧
      (stepC o c).s.pending_tool_calls = fc.tool_calls ∧
      (stepC o c).r = c.r + 1 ∧ (stepC o c).sr = c.sr ∧ (stepC o c).t = c.t ∧
      (stepC o c).node = toNode (routeFromChoose (stepC o c).s)) := by
  simp only [stepC, hnode]
  unfold nodeChoose
  simp only [if_neg hle]
  cases hr : o.chooseResp c.r with
  | error e =>
      left
      exact ⟨e, rfl, by simp [routeFromChoose, toNode]⟩
  | ok fc =>
      by_cases he : fc.tool_calls.isEmpty
      · right; left
        refine ⟨fc, rfl, List.isEmpty_iff.mp he, ?_, ?_, ?_, ?_, ?_, ?_, ?_, ?_, ?_⟩ <;>
          simp [he]
      · right; right
        refine ⟨fc, rfl, fun hnil => he (List.isEmpty_iff.mpr hnil),
          ?_, ?_, ?_, ?_, ?_, ?_, ?_, ?_, ?_⟩ <;> simp [he]

/-- A transition out of an `execute` configuration whose pending calls all
parse: the node body succeeds and control returns to `choose` with the
pending calls cleared and the control-relevant state unchanged. -/
lemma stepC_execute_ok (o : Oracle) (c : Config) (hnode : c.node = Node.execute)
    (hargs : ∀ tc ∈ c.s.pending_tool_calls, o.loadsOk (effArgs tc) = true) :
    (stepC o c).node = Node.choose ∧
    (stepC o c).s.step_index = c.s.step_index ∧
    (stepC o c).s.plan = c.s.plan ∧
    (stepC o c).s.completed = c.s.completed ∧
    (stepC o c).s.pending_tool_calls = [] ∧
    (stepC o c).r = c.r ∧ (stepC o c).sr = c.sr := by
  obtain ⟨res, hres⟩ :=
    execCalls_ok o c.s.pending_tool_calls hargs c.t c.s.messages c.s.tool_outputs
  have hne : ∃ s2 t2, nodeExecute o c.s c.t = some (s2, t2) := by
    unfold nodeExecute
    rw [hres]
    obtain ⟨ms, os, tt⟩ := res
    exact ⟨_, _, rfl⟩
  obtain ⟨s2, t2, hx⟩ := hne
  have hp := nodeExecute_preserves o c.s c.t s2 t2 hx
  simp only [stepC, hnode, hx]
  exact ⟨trivial, hp.1, hp.2.1, hp.2.2.1, hp.2.2.2.2.2.1, trivial, trivial⟩

/-- Core termination argument: from any `choose` configuration with no
pending calls, if the oracle stops returning tool calls from round `N` on
(and all tool-call arguments parse), the run reaches the end state.  The
measure combines the rounds left until `N` with the plan steps left. -/
lemma reach_end_from_choose (o : Oracle) (N : Nat)
    (hfin : ∀ k, N ≤ k → ¬ returnsToolCalls o k)
    (hargs : allToolArgsParse o) :
    ∀ M c, c.node = Node.choose → c.s.pending_tool_calls = [] →
      N - c.r + (c.s.plan.length - c.s.step_index) ≤ M →
      ∃ n, ((stepC o)^[n] c).node = Node.end_ := by
  intro M
  induction M with
  | zero =>
      intro c hnode hpend hM
      have hle : c.s.plan.length ≤ c.s.step_index := by omega
      exact ⟨1, by rw [Function.iterate_one]; exact choose_exhausted_end o c hnode hle⟩
  | succ M ih =>
      intro c hnode hpend hM
      by_cases hle : c.s.plan.length ≤ c.s.step_index
      · exact ⟨1, by rw [Function.iterate_one]; exact choose_exhausted_end o c hnode hle⟩
      by_cases hcomp : c.s.completed = true
      · exact ⟨1, by rw [Function.iterate_one]; exact choose_completed_end o c hnode hcomp⟩
      rcases stepC_choose_cases o c hnode hle with
        ⟨e, hr, hend⟩ |
        ⟨fc, hr, hcalls, hidx, hplan, hcm, hfa, hpd, hrr, hsr, ht, hnd⟩ |
        ⟨fc, hr, hcalls, hidx, hplan, hcm, hfa, hpd, hrr, hsr, ht, hnd⟩
      · exact ⟨1, by rw [Function.iterate_one]; exact hend⟩
      · -- no tool calls: the step counter advances
        have hroute : routeFromChoose (stepC o c).s =
            (if c.s.step_index + 1 < c.s.plan.length then "execute" else "end") := by
          unfold routeFromChoose
          rw [hcm, hpd, hpend, hidx, hplan]
          simp [hcomp]
        by_cases hlt : c.s.step_index + 1 < c.s.plan.length
        · have hnd' : (stepC o c).node = Node.execute := by
            rw [hnd, hroute, if_pos hlt]; decide
          have hargs2 : ∀ tc ∈ (stepC o c).s.pending_tool_calls,
              o.loadsOk (effArgs tc) = true := by
            rw [hpd, hpend]; intro tc htc; cases htc
          have hex := stepC_execute_ok o (stepC o c) hnd' hargs2
          obtain ⟨n, hn⟩ := ih (stepC o (stepC o c)) hex.1 hex.2.2.2.2.1 (by
            have e1 : (stepC o (stepC o c)).r = c.r + 1 := by
              rw [hex.2.2.2.2.2.1, hrr]
            have e2 : (stepC o (stepC o c)).s.plan.length = c.s.plan.length := by
              rw [hex.2.2.1, hplan]
            have e3 : (stepC o (stepC o c)).s.step_index = c.s.step_index + 1 := by
              rw [hex.2.1, hidx]
            omega)
          refine ⟨n + 1 + 1, ?_⟩
          rw [Function.iterate_succ_apply, Function.iterate_succ_apply]
          exact hn
        · refine ⟨1, ?_⟩
          rw [Function.iterate_one, hnd, hroute, if_neg hlt]
          decide
      · -- tool calls: the round counter advances, and `N` bounds how often
        have hrN : c.r < N := by
          by_contra hge
          exact hfin c.r (by omega) ⟨fc, hr, hcalls⟩
        have hie : fc.tool_calls.isEmpty = false := by
          cases hfc : fc.tool_calls with
          | nil => exact absurd hfc hcalls
          | cons a l => rfl
        have hnd' : (stepC o c).node = Node.execute := by
          rw [hnd]
          unfold routeFromChoose
          rw [hcm, hpd]
          simp [hcomp, hie, toNode]
        have hargs2 : ∀ tc ∈ (stepC o c).s.pending_tool_calls,
            o.loadsOk (effArgs tc) = true := by
          rw [hpd]; intro tc htc; exact hargs c.r fc tc hr htc
        have hex := stepC_execute_ok o (stepC o c) hnd' hargs2
        obtain ⟨n, hn⟩ := ih (stepC o (stepC o c)) hex.1 hex.2.2.2.2.1 (by
          have e1 : (stepC o (stepC o c)).r = c.r + 1 := by
            rw [hex.2.2.2.2.2.1, hrr]
          have e2 : (stepC o (stepC o c)).s.plan.length = c.s.plan.length := by
            rw [hex.2.2.1, hplan]
          have e3 : (stepC o (stepC o c)).s.step_index = c.s.step_index := by
            rw [hex.2.1, hidx]
          omega)
        refine ⟨n + 1 + 1, ?_⟩
        rw [Function.iterate_succ_apply, Function.iterate_succ_apply]
        exact hn

/-- The node `_node_plan` never touches the pending tool calls. -/
lemma nodePlan_pending (o : Oracle) (s : ExecState) :
    (nodePlan o s).pending_tool_calls = s.pending_tool_calls := by
  unfold nodePlan
  cases o.planResult <;> rfl

/-- C1, amended. The claim fails for executions in which the
tool-selection LLM returns tool calls at every choose step
(`c1_counterexample`): such a run never reaches the end state.  Amended
statement: for every question and oracle, if the tool-selection LLM returns
tool calls at only finitely many choose rounds (none from round `N` on) and
every returned tool call carries arguments accepted by `json.loads`, then
the run — plan node, then alternating choose and execute nodes — reaches
the end state after finitely many transitions. -/
theorem c1_amended (o : Oracle) (q : String) (N : Nat)
    (hfin : ∀ k, N ≤ k → ¬ returnsToolCalls o k)
    (hargs : allToolArgsParse o) :
    ∃ n, (trace o q n).node = Node.end_ := by
  have h1 : (trace o q 1).node = Node.choose := rfl
  have hpend : (trace o q 1).s.pending_tool_calls = [] := by
    show (stepC o (initConfig q)).s.pending_tool_calls = []
    simp only [stepC, initConfig]
    exact nodePlan_pending o (initState q)
  obtain ⟨n, hn⟩ := reach_end_from_choose o N hfin hargs
    (N + (trace o q 1).s.plan.length) (trace o q 1) h1 hpend (by omega)
  refine ⟨n + 1, ?_⟩
  have : trace o q (n + 1) = (stepC o)^[n] (trace o q 1) := by
    simp [trace, Function.iterate_add_apply]
  rw [this]
  exact hn

/-- Oracle for the witness: the LLM never returns tool calls. -/
def c1wOracle : Oracle :=
  ⟨Except.ok ["a", "b"],
   fun _ => Except.ok ⟨[], some "text"⟩,
   fun _ => Except.ok "done",
   fun _ => true,
   fun _ _ => "r"⟩

theorem c1_amended_witness :
    (∀ k, 0 ≤ k → ¬ returnsToolCalls c1wOracle k) ∧ allToolArgsParse c1wOracle ∧
    ∃ n, (trace c1wOracle "q" n).node = Node.end_ := by
  have hfin : ∀ k, 0 ≤ k → ¬ returnsToolCalls c1wOracle k := by
    rintro k - ⟨fc, hfc, hne⟩
    simp only [c1wOracle, Except.ok.injEq] at hfc
    rw [← hfc] at hne
    exact hne rfl
  have hargs : allToolArgsParse c1wOracle := by
    intro k fc tc hfc htc
    simp only [c1wOracle, Except.ok.injEq] at hfc
    rw [← hfc] at htc
    simp at htc
  exact ⟨hfin, hargs, c1_amended c1wOracle "q" 0 hfin hargs⟩

/-! ### C5: failure behaviour of the planner/executor -/

/-- The node `_node_plan` never touches the final answer. -/
lemma nodePlan_final (o : Oracle) (s : ExecState) :
    (nodePlan o s).final_answer = s.final_answer := by
  unfold nodePlan
  cases o.planResult <;> rfl

/-- One transition preserves `final_answer = none` as long as the end state
is not reached (only the successful summarization branch sets it, and that
branch completes the run). -/
lemma stepC_final_none (o : Oracle) (c : Config) (hc : c.s.final_answer = none)
    (h2 : (stepC o c).node ≠ Node.end_) : (stepC o c).s.final_answer = none := by
  cases hn : c.node
  case plan =>
      simp only [stepC, hn]
      rw [nodePlan_final]
      exact hc
  case choose =>
      by_cases hle : c.s.plan.length ≤ c.s.step_index
      · exact absurd (choose_exhausted_end o c hn hle) h2
      rcases stepC_choose_cases o c hn hle with
        ⟨e, hr, hend⟩ |
        ⟨fc, hr, hcalls, hidx, hplan, hcm, hfa, hpd, hrr, hsr, ht, hnd⟩ |
        ⟨fc, hr, hcalls, hidx, hplan, hcm, hfa, hpd, hrr, hsr, ht, hnd⟩
      · exact absurd hend h2
      · rw [hfa]; exact hc
      · rw [hfa]; exact hc
  case execute =>
      simp only [stepC, hn]
      cases hx : nodeExecute o c.s c.t with
      | none => exact hc
      | some p =>
          obtain ⟨s2, t2⟩ := p
          simpa using (nodeExecute_preserves o c.s c.t s2 t2 hx).2.2.2.1.trans hc
  case end_ => simpa [stepC, hn] using hc
  case crashed => simpa [stepC, hn] using hc

/-- Before the end state is reached, `final_answer` is still unset. -/
lemma trace_final_none (o : Oracle) (q : String) (n : Nat)
    (h : (trace o q n).node ≠ Node.end_) : (trace o q n).s.final_answer = none := by
  induction n with
  | zero => rfl
  | succ m ih =>
      rw [trace_succ] at h ⊢
      by_cases hm : (trace o q m).node = Node.end_
      · have hfix : stepC o (trace o q m) = trace o q m := by
          simp [stepC, hm]
        rw [hfix] at h
        exact absurd hm h
      · exact stepC_final_none o _ (ih hm) h

/-- Tool-selection failure: the `choose` node records the error, completes,
and the router ends the run on that very transition. -/
lemma stepC_choose_error (o : Oracle) (c : Config) (hnode : c.node = Node.choose)
    (hle : ¬ c.s.plan.length ≤ c.s.step_index) (e : String)
    (hr : o.chooseResp c.r = Except.error e) :
    (stepC o c).node = Node.end_ ∧ (stepC o c).s.completed = true ∧
    (stepC o c).s.error = some ("选择工具失败: " ++ e) ∧
    (stepC o c).s.final_answer = c.s.final_answer := by
  simp only [stepC, hnode]
  unfold nodeChoose
  simp only [if_neg hle, hr]
  refine ⟨?_, ?_, ?_, ?_⟩ <;> simp [routeFromChoose, toNode]

/-- Summarization failure: the `choose` node overwrites the error field,
completes, and the router ends the run on that very transition. -/
lemma stepC_choose_sum_error (o : Oracle) (c : Config) (hnode : c.node = Node.choose)
    (hle : c.s.plan.length ≤ c.s.step_index) (e : String)
    (hsr : o.summarizeResp c.sr = Except.error e) :
    (stepC o c).node = Node.end_ ∧ (stepC o c).s.completed = true ∧
    (stepC o c).s.error = some ("汇总失败: " ++ e) ∧
    (stepC o c).s.final_answer = c.s.final_answer ∧
    (stepC o c).sr = c.sr + 1 := by
  simp only [stepC, hnode]
  unfold nodeChoose
  simp only [if_pos hle, hsr]
  refine ⟨?_, ?_, ?_, ?_, ?_⟩ <;> simp [routeFromChoose, toNode]

/-- Summarization success: the `choose` node stores the answer, completes,
keeps the error field, and the router ends the run. -/
lemma stepC_choose_sum_ok (o : Oracle) (c : Config) (hnode : c.node = Node.choose)
    (hle : c.s.plan.length ≤ c.s.step_index) (a : String)
    (hsr : o.summarizeResp c.sr = Except.ok a) :
    (stepC o c).node = Node.end_ ∧ (stepC o c).s.completed = true ∧
    (stepC o c).s.final_answer = some a ∧
    (stepC o c).s.error = c.s.error ∧
    (stepC o c).sr = c.sr + 1 := by
  simp only [stepC, hnode]
  unfold nodeChoose
  simp only [if_pos hle, hsr]
  refine ⟨?_, ?_, ?_, ?_, ?_⟩ <;> simp [routeFromChoose, toNode]

/-- Planner failure: the state after the `plan` transition. -/
lemma trace_plan_error (o : Oracle) (q e : String) (hp : o.planResult = Except.error e) :
    (trace o q 1).node = Node.choose ∧ (trace o q 1).s.completed = true ∧
    (trace o q 1).s.error = some ("规划失败: " ++ e) ∧
    (trace o q 1).s.plan = [] ∧ (trace o q 1).s.step_index = 0 ∧
    (trace o q 1).sr = 0 ∧ (trace o q 1).s.final_answer = none := by
  have h0 : trace o q 1 = stepC o (initConfig q) := rfl
  rw [h0]
  simp only [stepC, initConfig]
  unfold nodePlan
  rw [hp]
  refine ⟨?_, ?_, ?_, ?_, ?_, ?_, ?_⟩ <;> trivial

/-- The counterexample oracle for C5: the planner raises, the summarization
call succeeds. -/
def c5cexOracle : Oracle :=
  ⟨Except.error "boom",
   fun _ => Except.error "unused",
   fun _ => Except.ok "ans",
   fun _ => true,
   fun _ _ => "r"⟩

/-- C5, counterexample. When the Planner raises, the run does *not* end
on that transition: the unconditional `plan → choose` edge runs the choose
node, whose exhausted-plan branch issues one summarization LLM call
(`sr = 1` records that the call happened).  The run then ends with the
planner error recorded but with `final_answer = some "ans" ≠ none`,
refuting the claim that a planner failure yields `final_answer = None`
with the run ending on the failing transition. -/
theorem c5_counterexample :
    (trace c5cexOracle "q" 1).node = Node.choose ∧
    (trace c5cexOracle "q" 2).node = Node.end_ ∧
    (trace c5cexOracle "q" 2).s.error = some "规划失败: boom" ∧
    (trace c5cexOracle "q" 2).s.completed = true ∧
    (trace c5cexOracle "q" 2).s.final_answer = some "ans" ∧
    (trace c5cexOracle "q" 2).sr = 1 := by
  exact ⟨rfl, rfl, rfl, rfl, rfl, rfl⟩

/-- C5, amended.  LLM failures in the `choose` node do end the run on
that very transition, with the error recorded, `completed = true` and
`final_answer = None`, and the failed call is not re-invoked.  A Planner
failure, however, does not end the run on its own transition: the `plan`
node records the error and `completed = True`, but the unconditional edge
still runs the `choose` node once, which issues one summarization LLM call;
the run ends one transition later, with `final_answer` equal to that call's
answer when it succeeds (`None`, with the error overwritten, when it also
fails). -/
theorem c5_amended (o : Oracle) (q : String) :
    (∀ n e, (trace o q n).node = Node.choose →
      (trace o q n).s.step_index < (trace o q n).s.plan.length →
      o.chooseResp (trace o q n).r = Except.error e →
      ((trace o q (n + 1)).node = Node.end_ ∧
       (trace o q (n + 1)).s.completed = true ∧
       (trace o q (n + 1)).s.error = some ("选择工具失败: " ++ e) ∧
       (trace o q (n + 1)).s.final_answer = none)) ∧
    (∀ n e, (trace o q n).node = Node.choose →
      (trace o q n).s.plan.length ≤ (trace o q n).s.step_index →
      o.summarizeResp (trace o q n).sr = Except.error e →
      ((trace o q (n + 1)).node = Node.end_ ∧
       (trace o q (n + 1)).s.completed = true ∧
       (trace o q (n + 1)).s.error = some ("汇总失败: " ++ e) ∧
       (trace o q (n + 1)).s.final_answer = none)) ∧
    (∀ e, o.planResult = Except.error e →
      ((trace o q 1).node = Node.choose ∧
       (trace o q 1).s.completed = true ∧
       (trace o q 1).s.error = some ("规划失败: " ++ e) ∧
       (trace o q 2).node = Node.end_ ∧
       (trace o q 2).s.completed = true ∧
       (trace o q 2).sr = 1 ∧
       (∀ a, o.summarizeResp 0 = Except.ok a →
         (trace o q 2).s.final_answer = some a ∧
         (trace o q 2).s.error = some ("规划失败: " ++ e)) ∧
       (∀ e2, o.summarizeResp 0 = Except.error e2 →
         (trace o q 2).s.final_answer = none ∧
         (trace o q 2).s.error = some ("汇总失败: " ++ e2)))) := by
  refine ⟨?_, ?_, ?_⟩
  · intro n e hnode hlt hr
    have hle : ¬ (trace o q n).s.plan.length ≤ (trace o q n).s.step_index := by omega
    have hfin : (trace o q n).s.final_answer = none :=
      trace_final_none o q n (by rw [hnode]; intro h; cases h)
    have h := stepC_choose_error o (trace o q n) hnode hle e hr
    rw [← trace_succ] at h
    exact ⟨h.1, h.2.1, h.2.2.1, h.2.2.2.trans hfin⟩
  · intro n e hnode hge hsr
    have hfin : (trace o q n).s.final_answer = none :=
      trace_final_none o q n (by rw [hnode]; intro h; cases h)
    have h := stepC_choose_sum_error o (trace o q n) hnode hge e hsr
    rw [← trace_succ] at h
    exact ⟨h.1, h.2.1, h.2.2.1, h.2.2.2.1.trans hfin⟩
  · intro e hp
    obtain ⟨h1n, h1c, h1e, h1p, h1i, h1sr, h1f⟩ := trace_plan_error o q e hp
    have hge : (trace o q 1).s.plan.length ≤ (trace o q 1).s.step_index := by
      rw [h1p, h1i]
      exact Nat.le_refl 0
    refine ⟨h1n, h1c, h1e, ?_, ?_, ?_, ?_, ?_⟩
    · cases hs : o.summarizeResp 0 with
      | error e2 =>
          have h := stepC_choose_sum_error o (trace o q 1) h1n hge e2 (by rw [h1sr]; exact hs)
          rw [← trace_succ] at h
          exact h.1
      | ok a =>
          have h := stepC_choose_sum_ok o (trace o q 1) h1n hge a (by rw [h1sr]; exact hs)
          rw [← trace_succ] at h
          exact h.1
    · cases hs : o.summarizeResp 0 with
      | error e2 =>
          have h := stepC_choose_sum_error o (trace o q 1) h1n hge e2 (by rw [h1sr]; exact hs)
          rw [← trace_succ] at h
          exact h.2.1
      | ok a =>
          have h := stepC_choose_sum_ok o (trace o q 1) h1n hge a (by rw [h1sr]; exact hs)
          rw [← trace_succ] at h
          exact h.2.1
    · cases hs : o.summarizeResp 0 with
      | error e2 =>
          have h := stepC_choose_sum_error o (trace o q 1) h1n hge e2 (by rw [h1sr]; exact hs)
          rw [← trace_succ] at h
          rw [h.2.2.2.2, h1sr]
      | ok a =>
          have h := stepC_choose_sum_ok o (trace o q 1) h1n hge a (by rw [h1sr]; exact hs)
          rw [← trace_succ] at h
          rw [h.2.2.2.2, h1sr]
    · intro a ha
      have h := stepC_choose_sum_ok o (trace o q 1) h1n hge a (by rw [h1sr]; exact ha)
      rw [← trace_succ] at h
      exact ⟨h.2.2.1, h.2.2.2.1.trans h1e⟩
    · intro e2 he2
      have h := stepC_choose_sum_error o (trace o q 1) h1n hge e2 (by rw [h1sr]; exact he2)
      rw [← trace_succ] at h
      exact ⟨h.2.2.2.1.trans h1f, h.2.2.1⟩

/-- Oracle for the C5 witness: the plan succeeds but the first
tool-selection call raises. -/
def c5wOracle : Oracle :=
  ⟨Except.ok ["s1"],
   fun _ => Except.error "x",
   fun _ => Except.ok "ans",
   fun _ => true,
   fun _ _ => "r"⟩

theorem c5_amended_witness :
    ((trace c5wOracle "q" 1).node = Node.choose ∧
     (trace c5wOracle "q" 1).s.step_index < (trace c5wOracle "q" 1).s.plan.length ∧
     c5wOracle.chooseResp (trace c5wOracle "q" 1).r = Except.error "x") ∧
    ((trace c5wOracle "q" 2).node = Node.end_ ∧
     (trace c5wOracle "q" 2).s.completed = true ∧
     (trace c5wOracle "q" 2).s.error = some ("选择工具失败: " ++ "x") ∧
     (trace c5wOracle "q" 2).s.final_answer = none) := by
  refine ⟨⟨rfl, by decide, rfl⟩, ?_⟩
  exact (c5_amended c5wOracle "q").1 1 "x" rfl (by decide) rfl

/-! ## Short-term memory (`memory.py`, `ShortTermMemory`)

The tokenizer (`tiktoken`) is modelled as a function `enc` from strings to
token lists; `tokens_of_messages` joins the message contents with newlines
before encoding, exactly as the source does. -/

/-- A short-term-memory message (`role`/`content` dict). -/
structure STMessage where
  role : String
  content : String
deriving DecidableEq, Repr

/-- Embedding of `tokens_of_messages`: token count of the newline-joined contents. -/
def tokensOfMessages (enc : String → List Nat) (msgs : List STMessage) : Nat :=
  (enc (String.intercalate "\n" (msgs.map (fun m => m.content)))).length

/-- Embedding of `_truncate_if_needed`: drop the oldest message while the token count
exceeds the budget and the list is non-empty. -/
def truncateIfNeeded (enc : String → List Nat) (maxTokens : Nat) :
    List STMessage → List STMessage
  | [] => []
  | m :: rest =>
      if maxTokens < tokensOfMessages enc (m :: rest) then
        truncateIfNeeded enc maxTokens rest
      else m :: rest

/-- Embedding of `ShortTermMemory.add`: append the message, then truncate if needed. -/
def stmAdd (enc : String → List Nat) (maxTokens : Nat) (msgs : List STMessage)
    (role content : String) : List STMessage :=
  truncateIfNeeded enc maxTokens (msgs ++ [⟨role, content⟩])

/-- The messages held after a finite sequence of `add(role, content)` calls,
starting from the empty list (`__init__`). -/
def stmAddAll (enc : String → List Nat) (maxTokens : Nat)
    (entries : List (String × String)) : List STMessage :=
  entries.foldl (fun msgs e => stmAdd enc maxTokens msgs e.1 e.2) []

/-- Truncation only removes the oldest messages: the result is a suffix. -/
lemma truncateIfNeeded_suffix (enc : String → List Nat) (maxTokens : Nat)
    (l : List STMessage) : truncateIfNeeded enc maxTokens l <:+ l := by
  induction l with
  | nil => exact List.suffix_refl []
  | cons m rest ih =>
      unfold truncateIfNeeded
      split
      · exact ih.trans (List.suffix_cons m rest)
      · exact List.suffix_refl _

/-- After truncation the token budget is respected (the tokenizer sends the
empty string to no tokens, as `tiktoken` does). -/
lemma truncateIfNeeded_le (enc : String → List Nat) (maxTokens : Nat)
    (hEnc : enc "" = []) (l : List STMessage) :
    tokensOfMessages enc (truncateIfNeeded enc maxTokens l) ≤ maxTokens := by
  induction l with
  | nil =>
      unfold truncateIfNeeded
      simp [tokensOfMessages, String.intercalate, hEnc]
  | cons m rest ih =>
      unfold truncateIfNeeded
      split
      · exact ih
      · omega

/-- Suffixes are preserved by appending the same element on the right. -/
lemma suffix_append_singleton {α : Type} {l₁ l₂ : List α} (x : α)
    (h : l₁ <:+ l₂) : l₁ ++ [x] <:+ l₂ ++ [x] := by
  obtain ⟨t, ht⟩ := h
  exact ⟨t, by rw [← ht, List.append_assoc]⟩

/-- The fold over all `add` calls keeps the state a suffix of the full
message sequence. -/
lemma stmAddAll_suffix_aux (enc : String → List Nat) (maxTokens : Nat) :
    ∀ (entries : List (String × String)) (acc done : List STMessage),
      acc <:+ done →
      entries.foldl (fun msgs e => stmAdd enc maxTokens msgs e.1 e.2) acc <:+
        done ++ entries.map (fun e => STMessage.mk e.1 e.2) := by
  intro entries
  induction entries with
  | nil => intro acc done h; simpa using h
  | cons e rest ih =>
      intro acc done h
      have h1 : stmAdd enc maxTokens acc e.1 e.2 <:+ done ++ [STMessage.mk e.1 e.2] := by
        exact (truncateIfNeeded_suffix enc maxTokens _).trans (suffix_append_singleton _ h)
      have h2 := ih (stmAdd enc maxTokens acc e.1 e.2) (done ++ [STMessage.mk e.1 e.2]) h1
      simpa [List.append_assoc] using h2

/-- The fold over all `add` calls keeps the token budget respected. -/
lemma stmAddAll_le_aux (enc : String → List Nat) (maxTokens : Nat)
    (hEnc : enc "" = []) :
    ∀ (entries : List (String × String)) (acc : List STMessage),
      tokensOfMessages enc acc ≤ maxTokens →
      tokensOfMessages enc
        (entries.foldl (fun msgs e => stmAdd enc maxTokens msgs e.1 e.2) acc) ≤ maxTokens := by
  intro entries
  induction entries with
  | nil => intro acc h; simpa using h
  | cons e rest ih =>
      intro acc h
      exact ih _ (truncateIfNeeded_le enc maxTokens hEnc _)

/-- C3. Short-term memory is a token-budget truncation of a list: after
any finite sequence of `add(role, content)` calls the retained messages are
a contiguous suffix of the full sequence of messages added so far (only the
oldest are dropped, relative order preserved), and their total token count,
as measured by the tokenizer on the newline-joined contents, is at most
`max_tokens`.  The only assumption on the tokenizer is that it encodes the
empty string to no tokens. -/
theorem c3_short_term_memory (enc : String → List Nat) (maxTokens : Nat)
    (entries : List (String × String)) (hEnc : enc "" = []) :
    (stmAddAll enc maxTokens entries <:+
      entries.map (fun e => STMessage.mk e.1 e.2)) ∧
    tokensOfMessages enc (stmAddAll enc maxTokens entries) ≤ maxTokens := by
  constructor
  · have h := stmAddAll_suffix_aux enc maxTokens entries [] [] (List.suffix_refl [])
    simpa [stmAddAll] using h
  · have h0 : tokensOfMessages enc [] ≤ maxTokens := by
      simp [tokensOfMessages, String.intercalate, hEnc]
    exact stmAddAll_le_aux enc maxTokens hEnc entries [] h0

/-- Concrete tokenizer for the witness: one token per character. -/
def encW : String → List Nat := fun s => s.toList.map Char.toNat

theorem c3_short_term_memory_witness :
    encW "" = [] ∧
    ((stmAddAll encW 5 [("user", "abc"), ("user", "defg")] <:+
        [("user", "abc"), ("user", "defg")].map (fun e => STMessage.mk e.1 e.2)) ∧
      tokensOfMessages encW (stmAddAll encW 5 [("user", "abc"), ("user", "defg")]) ≤ 5) :=
  ⟨rfl, c3_short_term_memory encW 5 [("user", "abc"), ("user", "defg")] rfl⟩

/-! ## Chroma vector memory (`memory.py`, `ChromaVectorMemory`)

The underlying langchain `Chroma` client is modelled as a record of
response functions; each wrapper method returns the outcome visible to the
caller (`PyResult`) together with the list of client calls it issued, in
order and with the exact arguments. -/

/-- A metadata dict, as an association list. -/
abbrev Meta := List (String × String)

/-- A document returned by `similarity_search`. -/
structure ChromaDoc where
  page_content : String
  metadata : Meta
deriving DecidableEq, Repr

/-- A record returned by `ChromaVectorMemory.search`. -/
structure SearchRec where
  text : String
  metadata : Meta
deriving DecidableEq, Repr

/-- Outcome of a Python call as seen by the caller: a value, or a raised
exception. -/
inductive PyResult (α : Type)
  | ok (val : α)
  | raised (exc : String)
deriving DecidableEq, Repr

/-- A call issued to the underlying vector-store client. -/
inductive VsCall
  | addTexts (texts : List String) (metadatas : Option (List Meta))
  | persistCall
  | searchCall (query : String) (k : Nat)
deriving DecidableEq, Repr

/-- The behaviour of the underlying `Chroma` client (oracle). -/
structure VsClient where
  add_texts : List String → Option (List Meta) → Except String Unit
  persist : Except String Unit
  similarity_search : String → Nat → Except String (List ChromaDoc)

/-- Embedding of `ChromaVectorMemory.add`: forward `texts`/`metadatas` to the client's
`add_texts`, then `persist`; any exception is caught and logged, so the
caller always sees a normal return. -/
def chromaAdd (vs : VsClient) (texts : List String) (metadatas : Option (List Meta)) :
    PyResult Unit × List VsCall :=
  match vs.add_texts texts metadatas with
  | Except.error _ => (PyResult.ok (), [VsCall.addTexts texts metadatas])
  | Except.ok _ =>
      match vs.persist with
      | Except.error _ => (PyResult.ok (), [VsCall.addTexts texts metadatas, VsCall.persistCall])
      | Except.ok _ => (PyResult.ok (), [VsCall.addTexts texts metadatas, VsCall.persistCall])

/-- Embedding of `ChromaVectorMemory.search`: call `similarity_search(query, k)`; on an
exception return `[]`, otherwise one `\x7btext, metadata\x7d` record per document,
in order. -/
def chromaSearch (vs : VsClient) (query : String) (k : Nat) :
    PyResult (List SearchRec) × List VsCall :=
  match vs.similarity_search query k with
  | Except.error _ => (PyResult.ok [], [VsCall.searchCall query k])
  | Except.ok docs =>
      (PyResult.ok (docs.map fun d => ⟨d.page_content, d.metadata⟩),
       [VsCall.searchCall query k])

/-- C6. `ChromaVectorMemory` is a pass-through wrapper: `add` issues
exactly one `add_texts` call, carrying exactly the given texts and
metadatas; and when the client's `similarity_search` succeeds, `search`
returns exactly one record per returned document, in the same order, with
`text` the unmodified `page_content` and `metadata` the unmodified
metadata. -/
theorem c6_passthrough (vs : VsClient) (texts : List String)
    (metadatas : Option (List Meta)) (query : String) (k : Nat) :
    ((chromaAdd vs texts metadatas).2.head? = some (VsCall.addTexts texts metadatas) ∧
      (chromaAdd vs texts metadatas).2.filter
        (fun c => match c with | VsCall.addTexts _ _ => true | _ => false) =
        [VsCall.addTexts texts metadatas]) ∧
    (∀ docs, vs.similarity_search query k = Except.ok docs →
      (chromaSearch vs query k).1 =
        PyResult.ok (docs.map fun d => SearchRec.mk d.page_content d.metadata)) := by
  constructor
  · unfold chromaAdd
    cases vs.add_texts texts metadatas with
    | error e => exact ⟨rfl, rfl⟩
    | ok u => cases vs.persist <;> exact ⟨rfl, rfl⟩
  · intro docs hdocs
    unfold chromaSearch
    rw [hdocs]

/-- Client used by the C6 witness: the search succeeds with two documents. -/
def vsW : VsClient :=
  ⟨fun _ _ => Except.ok (),
   Except.ok (),
   fun _ _ => Except.ok [⟨"t1", [("k", "v")]⟩, ⟨"t2", []⟩]⟩

theorem c6_passthrough_witness :
    vsW.similarity_search "q" 2 = Except.ok [⟨"t1", [("k", "v")]⟩, ⟨"t2", []⟩] ∧
    (chromaSearch vsW "q" 2).1 =
      PyResult.ok [SearchRec.mk "t1" [("k", "v")], SearchRec.mk "t2" []] ∧
    (chromaAdd vsW ["a"] none).2.head? = some (VsCall.addTexts ["a"] none) :=
  ⟨rfl,
   (c6_passthrough vsW ["a"] none "q" 2).2 [⟨"t1", [("k", "v")]⟩, ⟨"t2", []⟩] rfl,
   (c6_passthrough vsW ["a"] none "q" 2).1.1⟩

/-- C8. `ChromaVectorMemory` never propagates a store exception: `add`
always returns normally (whatever the client does), and when the client's
`similarity_search` raises, `search` returns the empty list. -/
theorem c8_no_exception (vs : VsClient) (texts : List String)
    (metadatas : Option (List Meta)) (query : String) (k : Nat) :
    (chromaAdd vs texts metadatas).1 = PyResult.ok () ∧
    (∀ e, vs.similarity_search query k = Except.error e →
      (chromaSearch vs query k).1 = PyResult.ok []) := by
  constructor
  · unfold chromaAdd
    cases vs.add_texts texts metadatas with
    | error e => rfl
    | ok u => cases vs.persist <;> rfl
  · intro e he
    unfold chromaSearch
    rw [he]

/-- Client used by the C8 witness: every operation raises. -/
def vsFail : VsClient :=
  ⟨fun _ _ => Except.error "db down",
   Except.error "db down",
   fun _ _ => Except.error "db down"⟩

theorem c8_no_exception_witness :
    vsFail.similarity_search "q" 4 = Except.error "db down" ∧
    (chromaAdd vsFail ["a"] none).1 = PyResult.ok () ∧
    (chromaSearch vsFail "q" 4).1 = PyResult.ok [] :=
  ⟨rfl,
   (c8_no_exception vsFail ["a"] none "q" 4).1,
   (c8_no_exception vsFail ["a"] none "q" 4).2 "db down" rfl⟩

/-! ## Safe calculator (`tools/calculator.py`)

`ast.parse` is external, so it is an oracle parameter: a function from the
input string to a Python AST (or a parse exception).  The AST type mirrors
the node kinds `_eval` inspects; `otherNode` stands for every other node
kind.  Numeric values are modelled as rationals: the claim settled here is
about exception propagation, not floating-point arithmetic; the only
value-level liberty taken is that a float power with a non-integral
exponent returns an unspecified rational, where Python would produce a
float or complex value (and any exception it raised instead would also be
caught by the wrapper, so the claim is insensitive to this). -/

/-- The value of a node matched by the deprecated `ast.Num` check, whose
instance test accepts `int`, `float` and `complex` constants. -/
inductive NumVal
  | ratNum (q : ℚ)
  | complexNum
deriving DecidableEq, Repr

/-- The value of an `ast.Constant`.  Python booleans pass the
`isinstance(value, (int, float))` test because `bool` subclasses `int`. -/
inductive PyConstVal
  | numV (q : ℚ)
  | boolV (b : Bool)
  | strV (s : String)
  | noneV
  | otherV
deriving DecidableEq, Repr

/-- Operator kinds.  `_OPS` contains `Add`, `Sub`, `Mult`, `Div`, `Pow` and
`USub`; `otherOp` stands for every operator class outside `_OPS`. -/
inductive OpKind
  | addOp
  | subOp
  | multOp
  | divOp
  | powOp
  | usubOp
  | otherOp
deriving DecidableEq, Repr

/-- A Python AST expression node, as far as `_eval` distinguishes them. -/
inductive PyAst
  | numNode (v : NumVal)
  | constantNode (v : PyConstVal)
  | binOpNode (left : PyAst) (op : OpKind) (right : PyAst)
  | unaryOpNode (op : OpKind) (operand : PyAst)
  | exprNode (value : PyAst)
  | otherNode
deriving DecidableEq, Repr

/-- The Python exception kinds that can arise inside the `try` block. -/
inductive PyExc
  | valueError (msg : String)
  | zeroDivisionError
  | typeError
deriving DecidableEq, Repr

/-- Membership test `type(op) in _OPS`. -/
def opInOPS : OpKind → Bool
  | OpKind.otherOp => false
  | _ => true

/-- Rendering `str(exc)` for the wrapper's message. -/
def excMsg : PyExc → String
  | PyExc.valueError m => m
  | PyExc.zeroDivisionError => "division by zero"
  | PyExc.typeError => "type error"

/-- Embedding of `operator.pow` on numbers: integral exponents are exact (with
`ZeroDivisionError` for a negative power of zero); a non-integral exponent
returns an unspecified stand-in value, see the section comment. -/
def pyPow (a b : ℚ) : Except PyExc ℚ :=
  if b.den = 1 then
    if a = 0 ∧ b < 0 then Except.error PyExc.zeroDivisionError
    else Except.ok (a ^ b.num)
  else Except.ok 0

/-- Embedding of `_eval`, branch by branch.  A `BinOp` whose operator is `USub` (or a
`UnaryOp` whose operator is binary) passes the `_OPS` membership test but
then applies the Python operator with the wrong arity, raising
`TypeError` after the operands are evaluated — exactly as the source
would. -/
def evalAst : PyAst → Except PyExc ℚ
  | PyAst.numNode (NumVal.ratNum q) => Except.ok q
  | PyAst.numNode NumVal.complexNum => Except.error PyExc.typeError
  | PyAst.constantNode (PyConstVal.numV q) => Except.ok q
  | PyAst.constantNode (PyConstVal.boolV b) => Except.ok (if b then 1 else 0)
  | PyAst.constantNode _ => Except.error (PyExc.valueError "仅支持数字常量")
  | PyAst.binOpNode l op r =>
      if opInOPS op then
        match evalAst l with
        | Except.error e => Except.error e
        | Except.ok vl =>
            match evalAst r with
            | Except.error e => Except.error e
            | Except.ok vr =>
                match op with
                | OpKind.addOp => Except.ok (vl + vr)
                | OpKind.subOp => Except.ok (vl - vr)
                | OpKind.multOp => Except.ok (vl * vr)
                | OpKind.divOp =>
                    if vr = 0 then Except.error PyExc.zeroDivisionError
                    else Except.ok (vl / vr)
                | OpKind.powOp => pyPow vl vr
                | _ => Except.error PyExc.typeError
      else Except.error (PyExc.valueError "不支持的二元运算符")
  | PyAst.unaryOpNode op operand =>
      if opInOPS op then
        match evalAst operand with
        | Except.error e => Except.error e
        | Except.ok v =>
            match op with
            | OpKind.usubOp => Except.ok (-v)
            | _ => Except.error PyExc.typeError
      else Except.error (PyExc.valueError "不支持的一元运算符")
  | PyAst.exprNode v => evalAst v
  | PyAst.otherNode => Except.error (PyExc.valueError "表达式包含不受支持的语法")

/-- Embedding of `evaluate_expression`: parse (`ast.parse`, the oracle `parse`), then
evaluate; the whole body sits in a `try` whose handler re-raises every
exception as `ValueError`. -/
def evaluate_expression (parse : String → Except PyExc PyAst) (expression : String) :
    Except PyExc ℚ :=
  match parse expression with
  | Except.error exc => Except.error (PyExc.valueError ("表达式非法: " ++ excMsg exc))
  | Except.ok tree =>
      match evalAst tree with
      | Except.error exc => Except.error (PyExc.valueError ("表达式非法: " ++ excMsg exc))
      | Except.ok v => Except.ok v

/-- C9. For every parser behaviour and every input string,
`evaluate_expression` either returns a number or raises `ValueError`; no
other exception kind escapes — parse failures, unsupported syntax,
unsupported binary or unary operators, non-numeric constants, and
arithmetic errors such as division by zero are all re-raised as
`ValueError` by the wrapper. -/
theorem c9_only_value_error (parse : String → Except PyExc PyAst) (expression : String) :
    (∃ v, evaluate_expression parse expression = Except.ok v) ∨
    (∃ m, evaluate_expression parse expression = Except.error (PyExc.valueError m)) := by
  cases hp : parse expression with
  | error exc =>
      refine Or.inr ⟨"表达式非法: " ++ excMsg exc, ?_⟩
      unfold evaluate_expression
      rw [hp]
  | ok tree =>
      cases he : evalAst tree with
      | error exc =>
          refine Or.inr ⟨"表达式非法: " ++ excMsg exc, ?_⟩
          unfold evaluate_expression
          rw [hp]
          simp [he]
      | ok v =>
          refine Or.inl ⟨v, ?_⟩
          unfold evaluate_expression
          rw [hp]
          simp [he]

/-! ## Tool-calling Q&A loop (`agents/base_qa.py`)

`BaseQAAgent.ask` seeds short-term memory (system context, the question,
and an optional vector-memory snippet), then runs
`for step in range(self.max_tool_steps)`.  Each round calls
`llm.function_call_chat` (the oracle `fcResp`, indexed by round).  Inside
a tool round, each call is processed as
`args = json.loads(tc.function.arguments or "\x7b\x7d")` — which sits *outside*
the `try` block, so an unparsable argument string raises
`JSONDecodeError` out of `ask` — followed by the dispatch inside the
`try`, which catches every exception and appends exactly one tool message
(modelled by `toolMsg`; `loadsOk` models `json.loads` acceptance, as in
the executor).  A round with no tool calls returns the stripped content
(raising `RuntimeError` when it is empty — the `vmem.add` afterwards
swallows its own errors).  If the loop finishes, the code reads the
Python variable `result`, which is unbound when the loop body never ran —
a `NameError` — and otherwise holds the last round's response, whose
`content` key is always present (see `LLMClient.function_call_chat`), so
the `.get` default string is never used. -/

/-- The external behaviour `ask` depends on: the function-calling responses
per round, whether `json.loads` accepts an argument string, and the
rendered tool message for a call executed in a round. -/
structure QAOracle where
  fcResp : Nat → FCResp
  loadsOk : String → Bool
  toolMsg : Nat → ToolCall → String

/-- Every tool call the LLM ever returns to `ask` carries arguments that
`json.loads` accepts (otherwise the round raises `JSONDecodeError`). -/
def qaAllToolArgsParse (o : QAOracle) : Prop :=
  ∀ j tc, tc ∈ (o.fcResp j).tool_calls → o.loadsOk (effArgs tc) = true

/-- The `add` calls made before the loop: system context, the question,
and — when vector memory is enabled (`vmemOut = some`) and the search
returned something — the memory snippet. -/
def qaEntries (question : String) (vmemOut : Option (List SearchRec)) :
    List (String × String) :=
  [("system", "你是一个具备工具使用能力的助理，善用函数进行计算与搜索。"),
   ("user", question)] ++
  (match vmemOut with
   | none => []
   | some mems =>
       if mems.isEmpty then []
       else [("system", "相关记忆: \n" ++ String.intercalate "\n" (mems.map (fun m => m.text)))])

/-- The per-round tool loop of `ask`: for each tool call, `json.loads` on
its arguments sits outside the `try` block (`none` models the uncaught
`JSONDecodeError`); the dispatch inside the `try` catches everything and
appends exactly one tool message per surviving call. -/
def qaExecCalls (o : QAOracle) (i : Nat) : List ToolCall → List Message → Option (List Message)
  | [], msgs => some msgs
  | tc :: rest, msgs =>
      if o.loadsOk (effArgs tc) then
        qaExecCalls o i rest (msgs ++ [⟨"tool", o.toolMsg i tc⟩])
      else none

/-- The tool-calling loop of `ask`.  `remaining` counts the iterations of
`range(max_tool_steps)` still to run and `i` the current round index (the
caller keeps `remaining + i = max_tool_steps`).  The second component of
the result counts the `function_call_chat` invocations made. -/
def askGo (o : QAOracle) : Nat → Nat → List Message → PyResult (Option String) × Nat
  | 0, i, _msgs =>
      if i = 0 then (PyResult.raised "NameError: name result is not defined", i)
      else (PyResult.ok (o.fcResp (i - 1)).content, i)
  | remaining + 1, i, msgs =>
      let result := o.fcResp i
      let content := result.content.getD ""
      if result.tool_calls.isEmpty then
        let finalAnswer := content.trim
        if finalAnswer = "" then
          (PyResult.raised "RuntimeError: LLM 未返回有效答案", i + 1)
        else (PyResult.ok (some finalAnswer), i + 1)
      else
        match qaExecCalls o i result.tool_calls msgs with
        | none => (PyResult.raised "JSONDecodeError: Expecting value", i + 1)
        | some msgs2 => askGo o remaining (i + 1) msgs2

/-- Embedding of `BaseQAAgent.ask` (`max_tool_steps` is the constructor argument; for a
non-positive value `range` yields no iterations). -/
def ask (o : QAOracle) (max_tool_steps : Int) (question : String)
    (enc : String → List Nat) (stmMax : Nat) (vmemOut : Option (List SearchRec)) :
    PyResult (Option String) × Nat :=
  askGo o max_tool_steps.toNat 0
    ((stmAddAll enc stmMax (qaEntries question vmemOut)).map
      (fun m => Message.mk m.role m.content))

/-- The loop never makes more LLM calls than it has iterations left. -/
lemma askGo_calls_le (o : QAOracle) :
    ∀ (rem i : Nat) (msgs : List Message), (askGo o rem i msgs).2 ≤ i + rem := by
  intro rem
  induction rem with
  | zero =>
      intro i msgs
      unfold askGo
      split <;> simp
  | succ r ih =>
      intro i msgs
      unfold askGo
      dsimp only
      split
      · split <;> simp
      · cases hqe : qaExecCalls o i (o.fcResp i).tool_calls msgs with
        | none =>
            show i + 1 ≤ i + (r + 1)
            omega
        | some msgs2 =>
            have h := ih (i + 1) msgs2
            show (askGo o r (i + 1) msgs2).2 ≤ i + (r + 1)
            omega

/-- If every call of a round parses, the round's tool loop succeeds. -/
lemma qaExecCalls_ok (o : QAOracle) (i : Nat) (calls : List ToolCall)
    (h : ∀ tc ∈ calls, o.loadsOk (effArgs tc) = true) :
    ∀ msgs, ∃ msgs2, qaExecCalls o i calls msgs = some msgs2 := by
  induction calls with
  | nil => intro msgs; exact ⟨msgs, rfl⟩
  | cons tc rest ih =>
      intro msgs
      have htc := h tc (List.mem_cons_self tc rest)
      simp only [qaExecCalls, htc, if_true]
      exact ih (fun x hx => h x (List.mem_cons_of_mem _ hx)) _

/-- If every remaining round returns tool calls whose arguments parse, the
loop runs them all and then returns the content of the last round's
response. -/
lemma askGo_all_tools (o : QAOracle) (hp : qaAllToolArgsParse o) :
    ∀ (rem i : Nat) (msgs : List Message), 0 < i + rem →
      (∀ j, j < i + rem → (o.fcResp j).tool_calls ≠ []) →
      askGo o rem i msgs = (PyResult.ok (o.fcResp (i + rem - 1)).content, i + rem) := by
  intro rem
  induction rem with
  | zero =>
      intro i msgs hpos _
      unfold askGo
      have hi : ¬ i = 0 := by omega
      simp [hi]
  | succ r ih =>
      intro i msgs hpos hall
      unfold askGo
      have hne : (o.fcResp i).tool_calls ≠ [] := hall i (by omega)
      have hie : (o.fcResp i).tool_calls.isEmpty = false := by
        cases hfc : (o.fcResp i).tool_calls with
        | nil => exact absurd hfc hne
        | cons a l => rfl
      simp only [hie]
      obtain ⟨msgs2, hm2⟩ := qaExecCalls_ok o i (o.fcResp i).tool_calls
        (fun tc htc => hp i tc htc) msgs
      simp only [hm2]
      have harith : i + 1 + r = i + (r + 1) := by omega
      have h := ih (i + 1) msgs2 (by omega) (by rw [harith]; exact hall)
      rw [harith] at h
      simpa using h

/-- The tool call used by the C7 input oracles. -/
def qaToolCall : ToolCall := ⟨⟨"web_search", some "\x7b\x7d"⟩⟩

/-- Oracle that returns a tool call at every round, with parsable
arguments. -/
def qa0Oracle : QAOracle :=
  ⟨fun _ => ⟨[qaToolCall], some "c"⟩, fun _ => true, fun _ _ => "m"⟩

/-- C7, counterexample. With `max_tool_steps = 0` — a value the
constructor accepts — the loop body never runs, the local variable
`result` is unbound, and `ask` raises `NameError` instead of returning a
content or fallback string.  This refutes the claim for "every
max_tool_steps value passed to the constructor". -/
theorem c7_counterexample :
    ask qa0Oracle 0 "q" encW 100 none =
      (PyResult.raised "NameError: name result is not defined", 0) := rfl

/-- C7, amended. For every `max_tool_steps ≥ 1` (the claim fails at
`0`, where `ask` raises `NameError` on the unbound local `result`): `ask`
invokes the LLM function-calling round at most `max_tool_steps` times,
and if every round returns tool calls whose argument strings `json.loads`
accepts (an unparsable one raises `JSONDecodeError`, because that call
sits outside the round's `try` block), the loop stops after exactly
`max_tool_steps` rounds and `ask` returns the content of the last round's
response (the dict's `content` key is always present, so the `.get`
fallback string is never consulted) rather than iterating further or
raising. -/
theorem c7_amended (o : QAOracle) (m : Int) (question : String)
    (enc : String → List Nat) (stmMax : Nat) (vmemOut : Option (List SearchRec))
    (hm : 1 ≤ m) :
    (ask o m question enc stmMax vmemOut).2 ≤ m.toNat ∧
    (qaAllToolArgsParse o →
      (∀ j, j < m.toNat → (o.fcResp j).tool_calls ≠ []) →
      ask o m question enc stmMax vmemOut =
        (PyResult.ok (o.fcResp (m.toNat - 1)).content, m.toNat)) := by
  constructor
  · have h := askGo_calls_le o m.toNat 0
      ((stmAddAll enc stmMax (qaEntries question vmemOut)).map
        (fun msg => Message.mk msg.role msg.content))
    simpa [ask] using h
  · intro hp hall
    have hpos : 0 < 0 + m.toNat := by omega
    have h := askGo_all_tools o hp m.toNat 0
      ((stmAddAll enc stmMax (qaEntries question vmemOut)).map
        (fun msg => Message.mk msg.role msg.content)) hpos (by simpa using hall)
    simpa [ask] using h

/-- Oracle for the C7 witness: tool calls with parsable arguments at both
of the two rounds. -/
def qaWOracle : QAOracle :=
  ⟨fun _ => ⟨[qaToolCall], some "working"⟩, fun _ => true, fun _ _ => "m"⟩

theorem c7_amended_witness :
    (1 ≤ (2 : Int)) ∧ qaAllToolArgsParse qaWOracle ∧
    (ask qaWOracle 2 "q" encW 100 none).2 ≤ (2 : Int).toNat ∧
    ask qaWOracle 2 "q" encW 100 none =
      (PyResult.ok (qaWOracle.fcResp ((2 : Int).toNat - 1)).content, (2 : Int).toNat) := by
  refine ⟨by decide, fun j tc _ => rfl, ?_, ?_⟩
  · exact (c7_amended qaWOracle 2 "q" encW 100 none (by decide)).1
  · exact (c7_amended qaWOracle 2 "q" encW 100 none (by decide)).2
      (fun j tc _ => rfl) (fun j hj => by simp [qaWOracle])

/-! ## Web agent (`web/agent.py`)

`WebAgent.run` starts the browser, then attempts every step in order; a
step whose `execute_action` succeeds appends one entry to `results`
(tagged with the step index and the action's `type`), a step whose
`execute_action` raises appends one formatted entry to `errors`.  The
outcome of `execute_action` for the `i`-th step is the oracle `o i`
(it depends on the live browser, so it is indexed by position). -/

/-- An action dict, as far as `run` reads it: its `type` key. -/
structure WebStep where
  type : Option String
deriving DecidableEq, Repr

/-- One entry of `results`. -/
structure WebResult where
  step : Nat
  type : Option String
  output : String
deriving DecidableEq, Repr

/-- The f-string `f"step \x7bi\x7d (\x7baction.get('type')\x7d): \x7bexc\x7d"`
(a missing `type` prints as `None`). -/
def renderWebErr (i : Nat) (t : Option String) (e : String) : String :=
  "step " ++ toString i ++ " (" ++ (match t with | some s => s | none => "None") ++ "): " ++ e

/-- The loop of `WebAgent.run`, with the running index and both
accumulators explicit. -/
def webRunFrom (o : Nat → Except String String) :
    Nat → List WebStep → List WebResult → List String → List WebResult × List String
  | _, [], results, errors => (results, errors)
  | i, a :: rest, results, errors =>
      match o i with
      | Except.ok out => webRunFrom o (i + 1) rest (results ++ [⟨i, a.type, out⟩]) errors
      | Except.error e => webRunFrom o (i + 1) rest results (errors ++ [renderWebErr i a.type e])

/-- Embedding of `WebAgent.run`: the `results` and `errors` lists it returns. -/
def webRun (o : Nat → Except String String) (steps : List WebStep) :
    List WebResult × List String :=
  webRunFrom o 0 steps [] []

/-- Specification-side description of `results` (from the claim's words):
one entry per succeeding step, in step order, tagged with index and type. -/
def webRunSpecResults (o : Nat → Except String String) (steps : List WebStep) :
    List WebResult :=
  steps.enum.filterMap fun p =>
    match o p.1 with
    | Except.ok out => some ⟨p.1, p.2.type, out⟩
    | Except.error _ => none

/-- Specification-side description of `errors`: one entry per failing step,
in step order. -/
def webRunSpecErrors (o : Nat → Except String String) (steps : List WebStep) :
    List String :=
  steps.enum.filterMap fun p =>
    match o p.1 with
    | Except.ok _ => none
    | Except.error e => some (renderWebErr p.1 p.2.type e)

lemma webRunFrom_spec (o : Nat → Except String String) :
    ∀ (steps : List WebStep) (i : Nat) (results : List WebResult) (errors : List String),
      webRunFrom o i steps results errors =
        (results ++ (steps.enumFrom i).filterMap (fun p =>
          match o p.1 with
          | Except.ok out => some (⟨p.1, p.2.type, out⟩ : WebResult)
          | Except.error _ => none),
         errors ++ (steps.enumFrom i).filterMap (fun p =>
          match o p.1 with
          | Except.ok _ => none
          | Except.error e => some (renderWebErr p.1 p.2.type e))) := by
  intro steps
  induction steps with
  | nil => intro i results errors; simp [webRunFrom]
  | cons a rest ih =>
      intro i results errors
      unfold webRunFrom
      cases ho : o i with
      | ok out => simp [List.enumFrom_cons, ho, ih (i + 1), List.append_assoc]
      | error e => simp [List.enumFrom_cons, ho, ih (i + 1), List.append_assoc]

/-- Exactly one of the two `filterMap`s keeps each enumerated step. -/
lemma webRun_length_aux (o : Nat → Except String String) :
    ∀ l : List (Nat × WebStep),
      (l.filterMap (fun p =>
        match o p.1 with
        | Except.ok out => some (⟨p.1, p.2.type, out⟩ : WebResult)
        | Except.error _ => none)).length +
      (l.filterMap (fun p =>
        match o p.1 with
        | Except.ok _ => none
        | Except.error e => some (renderWebErr p.1 p.2.type e))).length = l.length := by
  intro l
  induction l with
  | nil => rfl
  | cons p rest ih =>
      cases ho : o p.1 with
      | ok out => simp [List.filterMap_cons, ho]; omega
      | error e => simp [List.filterMap_cons, ho]; omega

/-- C10. `WebAgent.run` attempts every step in order regardless of
earlier failures and accounts for each step exactly once: the returned
`results` are precisely the succeeding steps (in order, tagged with their
index and type), the returned `errors` are precisely the failing steps (in
order), and the lengths add up to the number of steps. -/
theorem c10_web_agent_accounting (o : Nat → Except String String) (steps : List WebStep) :
    (webRun o steps).1 = webRunSpecResults o steps ∧
    (webRun o steps).2 = webRunSpecErrors o steps ∧
    (webRun o steps).1.length + (webRun o steps).2.length = steps.length := by
  have h := webRunFrom_spec o steps 0 [] []
  have h1 : (webRun o steps).1 = webRunSpecResults o steps := by
    simp [webRun, webRunSpecResults, List.enum, h]
  have h2 : (webRun o steps).2 = webRunSpecErrors o steps := by
    simp [webRun, webRunSpecErrors, List.enum, h]
  refine ⟨h1, h2, ?_⟩
  rw [h1, h2]
  have hl := webRun_length_aux o (steps.enumFrom 0)
  have hlen : (steps.enumFrom 0).length = steps.length := List.enumFrom_length
  rw [← hlen]
  simpa [webRunSpecResults, webRunSpecErrors, List.enum] using hl

end Agent101
